import Mathlib

/-!
Verification of the configuration-block editor and mode controller in
`wifictl.py` (class `WifiController` and the helper `replace_in_file`).

File contents are modelled as `List Char`.  The two regular expressions the
program applies through `re.sub(pattern, "", content, flags=re.DOTALL)` are
modelled by explicit deterministic matchers together with a left-to-right
scanner (`reSubEmpty`) that replaces every non-overlapping match by the empty
string, exactly as `re.sub` does.
-/

namespace Wifictl

/-- Fuel-indexed scanner for `re.sub(pattern, "", content)`: at each position
try the matcher `μ` (which returns the length of the match at that position,
if any); on a match, resume scanning right after the matched span (the
replacement is empty); otherwise keep the character and move one position
right.  The fuel always suffices because every match has positive length. -/
def reSubAux (μ : List Char → Option Nat) : Nat → List Char → List Char
  | _, [] => []
  | 0, s => s
  | fuel+1, c :: rest =>
    match μ (c :: rest) with
    | some n => reSubAux μ fuel (rest.drop (n - 1))
    | none => c :: reSubAux μ fuel rest

/-- `re.sub(pattern, "", s, flags=re.DOTALL)` for a pattern whose matcher is
`μ`; `s.length` units of fuel suffice since every match consumes at least one
character. -/
def reSubEmpty (μ : List Char → Option Nat) (s : List Char) : List Char :=
  reSubAux μ s.length s

/-- Largest position `q` with `1 ≤ q ≤ n` at which `e` occurs as a prefix of
`t.drop q`; this is how the backtracking of the greedy `.+` in
`begin .+ end` picks the end marker: the furthest occurrence, with at least
one character consumed by `.+`. -/
def lastEndAux (e t : List Char) : Nat → Option Nat
  | 0 => none
  | q+1 => if e <+: t.drop (q+1) then some (q+1) else lastEndAux e t q

/-- Position picked by the greedy `.+` for the end marker `e` inside `t`. -/
def lastEndPos (e t : List Char) : Option Nat :=
  lastEndAux e t t.length

/-- Matcher for the Python regex `b .+ e` (with `re.DOTALL`, so `.` also
matches newlines) at the current position: the literal `b`, then a greedy
`.+`, then the literal `e`.  Returns the length of the match, if any. -/
def matchBlockLen (b e : List Char) (s : List Char) : Option Nat :=
  if b <+: s then
    match lastEndPos e (s.drop b.length) with
    | some p => some (b.length + p + e.length)
    | none => none
  else none

/-- Begin marker `#<begin_{id}_entry>` for a delimited configuration entry. -/
def beginMark (id : List Char) : List Char :=
  "#<begin_".data ++ id ++ "_entry>".data

/-- End marker `#<end_{id}_entry>` for a delimited configuration entry. -/
def endMark (id : List Char) : List Char :=
  "#<end_".data ++ id ++ "_entry>".data

/-- The default identifier `"rpiwifi"`, the one used at every call site. -/
def rpiwifi : List Char := "rpiwifi".data

/-- `WifiController.remove_entry_from_config`: applies
`re.sub(r"#<begin_{id}_entry>.+#<end_{id}_entry>", "", content, flags=re.DOTALL)`
to the file content. -/
def remove_entry_from_config (content : List Char) (id : List Char := rpiwifi) :
    List Char :=
  reSubEmpty (matchBlockLen (beginMark id) (endMark id)) content

/-- The block of text `add_entry_to_config` appends:
`"#<begin_{id}_entry>\n" + entry + "\n" + "#<end_{id}_entry>\n"`. -/
def entryBlock (id entry : List Char) : List Char :=
  beginMark id ++ '\n' :: (entry ++ '\n' :: (endMark id ++ ['\n']))

/-- `WifiController.add_entry_to_config`: first removes any existing entry with
the identifier, then appends the delimited block at end-of-file. -/
def add_entry_to_config (entry content : List Char) (id : List Char := rpiwifi) :
    List Char :=
  remove_entry_from_config content id ++ entryBlock id entry

/-- The literal part `#psk="` of the plaintext-password comment pattern. -/
def pskCommentPrefix : List Char := "#psk=\"".data

/-- Matcher for the Python regex `\t*#psk="[^\n"]+"\n` at the current
position: any number of tabs, the literal `#psk="`, one or more characters
that are neither `"` nor a newline, a closing `"`, and a newline.  The
star and plus are greedy; since the character class excludes the closing
quote, backtracking can never produce a different match, so the maximal-run
reading below is exact. -/
def matchPskLen (s : List Char) : Option Nat :=
  let tabs := s.takeWhile (fun c => c == '\t')
  let s1 := s.drop tabs.length
  if pskCommentPrefix <+: s1 then
    let s2 := s1.drop pskCommentPrefix.length
    let body := s2.takeWhile (fun c => !(c == '"' || c == '\n'))
    if 1 ≤ body.length then
      match s2.drop body.length with
      | '"' :: '\n' :: _ => some (tabs.length + pskCommentPrefix.length + body.length + 2)
      | _ => none
    else none
  else none

/-- Line 71 of `wifictl.py`:
`entry = re.sub(r'\t*#psk="[^\n"]+"\n', "", entry)` — the scrubbing applied to
the raw `wpa_passphrase` output before it is persisted. -/
def scrubbed_entry (raw : List Char) : List Char :=
  reSubEmpty matchPskLen raw

/-- Number of positions of `s` at which `pat` occurs (as a prefix of the
corresponding suffix); used to state "contains exactly one delimited entry". -/
def occCount (pat : List Char) : List Char → Nat
  | [] => 0
  | c :: rest => (if pat <+: c :: rest then 1 else 0) + occCount pat rest

/-- Decidable check that `s` contains a complete begin-to-end span: somewhere
an occurrence of the begin marker, followed (after at least one intervening
character, as required by `.+`) by an occurrence of the end marker. -/
def hasCompleteSpan (bm em s : List Char) : Bool :=
  (List.range s.length).any fun i =>
    decide (bm <+: s.drop i) &&
    ((List.range ((s.drop (i + bm.length)).length + 1)).any fun p =>
      decide (1 ≤ p) && decide (em <+: (s.drop (i + bm.length)).drop p))

/-- A scanned network cell: its network name (`cell.ssid`) and signal quality
(`cell.quality`). -/
structure Cell where
  ssid : String
  quality : Nat
deriving DecidableEq

/-- One step of the dict comprehension `{cell.ssid: cell for cell in cells}`:
if the key is already present its value is overwritten in place (Python dicts
keep the insertion position of the first occurrence of a key), otherwise the
new pair is appended. -/
def updateOrAppend (m : List (String × Cell)) (c : Cell) : List (String × Cell) :=
  if m.any (fun p => p.1 == c.ssid) then
    m.map fun p => if p.1 == c.ssid then (p.1, c) else p
  else m ++ [(c.ssid, c)]

/-- The dict comprehension `{cell.ssid: cell for cell in cells}` as an
insertion-ordered association list. -/
def cellDict (cells : List Cell) : List (String × Cell) :=
  cells.foldl updateOrAppend []

/-- `WifiController.list_available_wifis`, from the point where the `cells`
scan results are in hand: deduplicate by ssid via the dict comprehension and
stably sort by quality, descending (`unique_cells.sort(key=..., reverse=True)`
is a stable sort, so any stable sort — insertion sort here — has the same
input/output behaviour). -/
def list_available_wifis (cells : List Cell) : List Cell :=
  List.insertionSort (fun a b => b.quality ≤ a.quality)
    ((cellDict cells).map Prod.snd)

/-- `WifiController.AP_MODE`. -/
def AP_MODE : String := "AP"

/-- `WifiController.CLI_MODE`. -/
def CLI_MODE : String := "CLI"

/-- `WifiController.get_mode`: the exit status of
`systemctl -q is-active hostapd` decides the mode. -/
def get_mode (hostapd_is_active_status : Int) : String :=
  if hostapd_is_active_status = 0 then AP_MODE else CLI_MODE

/-- Python truthiness of an optional string argument: `None` and the empty
string are falsy. -/
def truthy : Option String → Bool
  | none => false
  | some s => !s.isEmpty

/-- The externally visible state `set_cli_mode` touches: the two managed
configuration files and the log of external process invocations, in order. -/
structure SysState where
  wpa_supplicant_conf : List Char
  dhcpcd_conf : List Char
  invoked : List (List String)
deriving DecidableEq

/-- `WifiController.set_cli_mode(ssid, password)`.  `wpaOut` is the raw output
the invocation of `/usr/bin/wpa_passphrase` would produce (an input of the
model, since the utility is an external black box).  Returns the boolean
result together with the final state. -/
def set_cli_mode (interface : String) (ssid password : Option String)
    (wpaOut : List Char) (st : SysState) : Bool × SysState :=
  if !(truthy password) then (false, st)
  else
    let st1 : SysState :=
      { st with invoked := st.invoked ++
          [["dhcpcd", "--release", interface], ["service", "dhcpcd", "stop"]] }
    let st2 : SysState :=
      if truthy ssid then
        let entry := scrubbed_entry wpaOut
        { st1 with
          invoked := st1.invoked ++
            [["/usr/bin/wpa_passphrase", ssid.getD "", password.getD ""]],
          wpa_supplicant_conf := add_entry_to_config entry st1.wpa_supplicant_conf }
      else st1
    let st3 : SysState := { st2 with dhcpcd_conf := remove_entry_from_config st2.dhcpcd_conf }
    let st4 : SysState :=
      { st3 with invoked := st3.invoked ++
          [["systemctl", "stop", "hostapd.service", "dnsmasq.service"],
           ["systemctl", "disable", "hostapd.service", "dnsmasq.service"],
           ["service", "dhcpcd", "start"],
           ["wpa_cli", "-i", interface, "reconfigure"]] }
    (true, st4)

/-- An editing operation on a managed configuration file. -/
inductive ConfigOp where
  | add (entry : List Char)
  | remove
deriving DecidableEq

/-- Apply one editing operation to a file content. -/
def applyConfigOp (id content : List Char) : ConfigOp → List Char
  | .add e => add_entry_to_config e content id
  | .remove => remove_entry_from_config content id

/-- Apply a sequence of editing operations, left to right. -/
def applyConfigOps (id content : List Char) (ops : List ConfigOp) : List Char :=
  ops.foldl (applyConfigOp id) content

/-- The shape of `/usr/bin/wpa_passphrase <ssid> <password>` output:
`network={ ssid="..." #psk="..." psk=<hex> }` with the plaintext-password
comment line in the middle. -/
def wpaRawOutput (S P H : List Char) : List Char :=
  "network=\x7b\n\tssid=\"".data ++ S ++ "\"\n\t#psk=\"".data ++ P
    ++ "\"\n\tpsk=".data ++ H ++ "\n\x7d\n".data

/-- The same output with the plaintext-password comment line removed. -/
def wpaCleanOutput (S H : List Char) : List Char :=
  "network=\x7b\n\tssid=\"".data ++ S ++ "\"\n\tpsk=".data ++ H ++ "\n\x7d\n".data

/-- The plaintext-password comment line `\t#psk="P"\n` as it appears in the
raw `wpa_passphrase` output. -/
def plainPskLine (P : List Char) : List Char :=
  "\t#psk=\"".data ++ P ++ "\"\n".data

/-- The derived-key line `\tpsk=H\n` of the `wpa_passphrase` output. -/
def derivedKeyLine (H : List Char) : List Char :=
  "\tpsk=".data ++ H ++ "\n".data

/-! ### Generic helper lemmas about occurrences and the scanner -/

theorem reSubAux_congr (μ : List Char → Option Nat) :
    ∀ (f1 : Nat) (s : List Char) (f2 : Nat), s.length ≤ f1 → s.length ≤ f2 →
      reSubAux μ f1 s = reSubAux μ f2 s := by
  intro f1
  induction f1 with
  | zero =>
    intro s f2 h1 _
    match s, f2 with
    | [], 0 => rfl
    | [], _+1 => rfl
    | c :: rest, _ => simp at h1
  | succ f ih =>
    intro s f2 h1 h2
    match s, f2 with
    | [], 0 => rfl
    | [], _+1 => rfl
    | c :: rest, 0 => simp at h2
    | c :: rest, f2+1 =>
      simp only [reSubAux]
      cases hμ : μ (c :: rest) with
      | some n =>
        have hd := List.length_drop (n - 1) rest
        have hr : rest.length ≤ f := by simp at h1; omega
        have hr2 : rest.length ≤ f2 := by simp at h2; omega
        exact ih (rest.drop (n - 1)) f2 (by omega) (by omega)
      | none =>
        have hr : rest.length ≤ f := by simp at h1; omega
        have hr2 : rest.length ≤ f2 := by simp at h2; omega
        rw [ih rest f2 hr hr2]

theorem reSub_cons_none {μ : List Char → Option Nat} {c : Char} {rest : List Char}
    (h : μ (c :: rest) = none) :
    reSubEmpty μ (c :: rest) = c :: reSubEmpty μ rest := by
  show reSubAux μ (c :: rest).length (c :: rest) = _
  simp only [List.length_cons, reSubAux, h]
  rfl

theorem reSub_cons_some {μ : List Char → Option Nat} {c : Char} {rest : List Char} {n : Nat}
    (h : μ (c :: rest) = some n) :
    reSubEmpty μ (c :: rest) = reSubEmpty μ (rest.drop (n - 1)) := by
  show reSubAux μ (c :: rest).length (c :: rest) = _
  simp only [List.length_cons, reSubAux, h]
  exact reSubAux_congr μ rest.length (rest.drop (n - 1)) (rest.drop (n - 1)).length
    (by simp) (le_refl _)

theorem infix_of_prefix_drop {p l : List Char} {i : Nat} (h : p <+: l.drop i) :
    p <:+: l := by
  obtain ⟨r, hr⟩ := h
  exact ⟨l.take i, r, by rw [List.append_assoc, hr, List.take_append_drop]⟩

theorem prefix_drop_infix_take {b l : List Char} {i : Nat} (h : b <+: l.drop i) :
    b <:+: l.take (i + b.length) := by
  have hb : b = (l.drop i).take b.length := List.prefix_iff_eq_take.mp h
  exact ⟨l.take i, [], by rw [List.append_nil, List.take_add, ← hb]⟩

theorem no_occurrence_in_drops {b x y : List Char} (hb : b ≠ [])
    (h : ¬ b <:+: x ++ y.take (b.length - 1)) :
    ∀ i < x.length, ¬ b <+: (x ++ y).drop i := by
  intro i hi hpre
  apply h
  have h1 : b <:+: (x ++ y).take (i + b.length) := prefix_drop_infix_take hpre
  have hlen : i + b.length ≤ x.length + (b.length - 1) := by
    have : 1 ≤ b.length := by
      cases b with
      | nil => exact absurd rfl hb
      | cons a t => simp
    omega
  have h2 : (x ++ y).take (i + b.length) <+: (x ++ y).take (x.length + (b.length - 1)) :=
    List.take_isPrefix_take.mpr (Or.inl hlen)
  have h3 : (x ++ y).take (x.length + (b.length - 1)) = x ++ y.take (b.length - 1) := by
    rw [List.take_append_eq_append_take, List.take_of_length_le (by omega)]
    congr 2
    omega
  rw [h3] at h2
  exact h1.trans h2.isInfix

theorem prefix_append_cases {p u v : List Char} (h : p <+: u ++ v) :
    (p.length ≤ u.length ∧ p <+: u) ∨ (u.length ≤ p.length ∧ u <+: p) := by
  by_cases hl : p.length ≤ u.length
  · exact Or.inl ⟨hl, List.prefix_of_prefix_length_le h (List.prefix_append u v) hl⟩
  · have hl2 : u.length ≤ p.length := le_of_not_le hl
    exact Or.inr ⟨hl2, List.prefix_of_prefix_length_le (List.prefix_append u v) h hl2⟩

theorem infix_append_split {p x y : List Char} (h : p <:+: x ++ y) :
    p <:+: x ∨ p <:+: y ∨
      ∃ x₁ y₁, x₁ ≠ [] ∧ y₁ ≠ [] ∧ x₁ <:+ x ∧ y₁ <+: y ∧ p = x₁ ++ y₁ := by
  obtain ⟨a, b, hab⟩ := h
  by_cases h1 : a.length + p.length ≤ x.length
  · left
    have hx : x = (a ++ (p ++ b)).take x.length := by
      rw [show a ++ (p ++ b) = (x ++ y) from by rw [← List.append_assoc, hab],
        List.take_left]
    rw [List.take_append_eq_append_take, List.take_of_length_le (by omega),
      List.take_append_eq_append_take, List.take_of_length_le (by omega)] at hx
    exact ⟨a, b.take (x.length - a.length - p.length), by rw [← List.append_assoc] at hx; exact hx.symm⟩
  · by_cases h2 : x.length ≤ a.length
    · right; left
      have hy : y = (a ++ (p ++ b)).drop x.length := by
        rw [show a ++ (p ++ b) = (x ++ y) from by rw [← List.append_assoc, hab],
          List.drop_left]
      rw [List.drop_append_eq_append_drop, show x.length - a.length = 0 from by omega,
        List.drop_zero] at hy
      exact ⟨a.drop x.length, b, by rw [← List.append_assoc] at hy; exact hy.symm⟩
    · right; right
      have hax : a.length < x.length := by omega
      refine ⟨p.take (x.length - a.length), p.drop (x.length - a.length), ?_, ?_, ?_, ?_, ?_⟩
      · have : (p.take (x.length - a.length)).length = x.length - a.length := by
          rw [List.length_take]; omega
        intro hnil
        rw [hnil] at this
        simp at this
        omega
      · have : (p.drop (x.length - a.length)).length = p.length - (x.length - a.length) := by
          rw [List.length_drop]
        intro hnil
        rw [hnil] at this
        simp at this
        omega
      · -- x = a ++ p.take (x.length - a.length)
        have hx : x = (a ++ (p ++ b)).take x.length := by
          rw [show a ++ (p ++ b) = (x ++ y) from by rw [← List.append_assoc, hab],
            List.take_left]
        rw [List.take_append_eq_append_take, List.take_of_length_le (by omega),
          List.take_append_eq_append_take,
          show x.length - a.length - p.length = 0 from by omega, List.take_zero,
          List.append_nil] at hx
        exact ⟨a, hx.symm⟩
      · -- y = p.drop (x.length - a.length) ++ b
        have hy : y = (a ++ (p ++ b)).drop x.length := by
          rw [show a ++ (p ++ b) = (x ++ y) from by rw [← List.append_assoc, hab],
            List.drop_left]
        rw [List.drop_append_eq_append_drop, List.drop_eq_nil_iff.mpr (by omega),
          List.nil_append, List.drop_append_eq_append_drop,
          show x.length - a.length - p.length = 0 from by omega, List.drop_zero] at hy
        exact ⟨b, hy.symm⟩
      · rw [List.take_append_drop]

/-! ### Lemmas about the greedy end-marker search and the block matcher -/

theorem lastEndAux_some {e t : List Char} :
    ∀ {n p : Nat}, lastEndAux e t n = some p → 1 ≤ p ∧ p ≤ n ∧ e <+: t.drop p := by
  intro n
  induction n with
  | zero => intro p h; simp [lastEndAux] at h
  | succ q ih =>
    intro p h
    rw [lastEndAux] at h
    split at h
    · cases h
      exact ⟨by omega, le_refl _, by assumption⟩
    · obtain ⟨h1, h2, h3⟩ := ih h
      exact ⟨h1, by omega, h3⟩

theorem lastEndAux_eq_some {e t : List Char} {p : Nat} (hp1 : 1 ≤ p)
    (hp : e <+: t.drop p) :
    ∀ n, p ≤ n → (∀ q, p < q → q ≤ n → ¬ e <+: t.drop q) → lastEndAux e t n = some p := by
  intro n
  induction n with
  | zero => intro h _; omega
  | succ q ih =>
    intro hn hmax
    rw [lastEndAux]
    by_cases hpq : p = q + 1
    · subst hpq
      rw [if_pos hp]
    · have hlt : p ≤ q := by omega
      rw [if_neg (hmax (q + 1) (by omega) (le_refl _))]
      exact ih hlt fun r h1 h2 => hmax r h1 (by omega)

theorem lastEndPos_eq_some {e t : List Char} {p : Nat} (he : e ≠ []) (hp1 : 1 ≤ p)
    (hp : e <+: t.drop p) (hmax : ∀ q, p < q → ¬ e <+: t.drop q) :
    lastEndPos e t = some p := by
  have hdrop : t.drop p ≠ [] := by
    intro hnil
    rw [hnil, List.prefix_nil] at hp
    exact he hp
  have hplen : p ≤ t.length := by
    by_contra hgt
    exact hdrop (List.drop_eq_nil_iff.mpr (by omega))
  exact lastEndAux_eq_some hp1 hp t.length hplen fun q h1 _ => hmax q h1

theorem lastEndPos_suffix_exact {e w : List Char} (he : e ≠ []) (hw : 1 ≤ w.length) :
    lastEndPos e (w ++ e) = some w.length := by
  apply lastEndPos_eq_some he hw
  · rw [List.drop_left]
  · intro q hq hpre
    have h1 := hpre.length_le
    rw [List.length_drop, List.length_append] at h1
    have he1 : 1 ≤ e.length := by
      cases e with
      | nil => exact absurd rfl he
      | cons a t => simp
    omega

theorem lastEndPos_sandwich {e w : List Char} {c : Char} (he : e ≠ []) (hc : c ∉ e)
    (hw : 1 ≤ w.length) :
    lastEndPos e (w ++ (e ++ [c])) = some w.length := by
  have he1 : 1 ≤ e.length := by
    cases e with
    | nil => exact absurd rfl he
    | cons a t => simp
  apply lastEndPos_eq_some he hw
  · rw [List.drop_left]
    exact List.prefix_append e [c]
  · intro q hq hpre
    have h1 := hpre.length_le
    simp only [List.length_drop, List.length_append, List.length_singleton] at h1
    have hq1 : q = w.length + 1 := by omega
    rw [hq1, List.drop_append] at hpre
    have hlen : e.length = ((e ++ [c]).drop 1).length := by
      simp only [List.length_drop, List.length_append, List.length_singleton]
      omega
    have heq : e = (e ++ [c]).drop 1 := hpre.eq_of_length hlen
    apply hc
    cases e with
    | nil => exact absurd rfl he
    | cons a t =>
      rw [List.cons_append, List.drop_succ_cons, List.drop_zero] at heq
      rw [heq]
      exact List.mem_append_right t (List.mem_singleton.mpr rfl)

theorem matchBlockLen_none_of_no_match_start {b e s : List Char} (h : ¬ b <+: s) :
    matchBlockLen b e s = none := by
  rw [matchBlockLen, if_neg h]

theorem matchBlockLen_some_inv {b e s : List Char} {n : Nat}
    (h : matchBlockLen b e s = some n) :
    b <+: s ∧ ∃ p, 1 ≤ p ∧ e <+: (s.drop b.length).drop p ∧ n = b.length + p + e.length := by
  rw [matchBlockLen] at h
  split at h
  · refine ⟨by assumption, ?_⟩
    cases hE : lastEndPos e (s.drop b.length) with
    | none => rw [hE] at h; cases h
    | some p =>
      rw [hE] at h
      cases h
      obtain ⟨h1, _, h3⟩ := lastEndAux_some hE
      exact ⟨p, h1, h3, rfl⟩
  · cases h

theorem matchBlockLen_of_lastEndPos {b e t : List Char} {p : Nat}
    (hE : lastEndPos e t = some p) :
    matchBlockLen b e (b ++ t) = some (b.length + p + e.length) := by
  rw [matchBlockLen, if_pos (List.prefix_append b t), List.drop_left, hE]

theorem reSub_no_match {b e : List Char} :
    ∀ {s : List Char}, ¬ b <:+: s → reSubEmpty (matchBlockLen b e) s = s := by
  intro s
  induction s with
  | nil => intro _; rfl
  | cons c rest ih =>
    intro h
    have hp : ¬ b <+: c :: rest := fun hp => h hp.isInfix
    rw [reSub_cons_none (matchBlockLen_none_of_no_match_start hp),
      ih fun hi => h (List.infix_cons hi)]

theorem reSub_append_of_no_match (μ : List Char → Option Nat) :
    ∀ (x y : List Char), (∀ i < x.length, μ ((x ++ y).drop i) = none) →
      reSubEmpty μ (x ++ y) = x ++ reSubEmpty μ y := by
  intro x
  induction x with
  | nil => intro y _; rfl
  | cons c x' ih =>
    intro y h
    have h0 : μ (c :: (x' ++ y)) = none := by
      have := h 0 (by simp)
      simpa using this
    rw [List.cons_append, reSub_cons_none h0, ih y ?_, List.cons_append]
    intro i hi
    have := h (i + 1) (by simp; omega)
    rw [List.cons_append, List.drop_succ_cons] at this
    exact this

theorem reSub_block_append {b e : List Char} (hb : b ≠ []) {x y : List Char}
    (h : ¬ b <:+: x ++ y.take (b.length - 1)) :
    reSubEmpty (matchBlockLen b e) (x ++ y) = x ++ reSubEmpty (matchBlockLen b e) y := by
  apply reSub_append_of_no_match
  intro i hi
  exact matchBlockLen_none_of_no_match_start (no_occurrence_in_drops hb h i hi)

theorem reSub_match_head {b e t : List Char} {p : Nat} (hb : b ≠ [])
    (hE : lastEndPos e t = some p) :
    reSubEmpty (matchBlockLen b e) (b ++ t) =
      reSubEmpty (matchBlockLen b e) (t.drop (p + e.length)) := by
  cases b with
  | nil => exact absurd rfl hb
  | cons c b' =>
    rw [List.cons_append,
      reSub_cons_some (by rw [← List.cons_append]; exact matchBlockLen_of_lastEndPos hE)]
    congr 1
    rw [show (c :: b').length + p + e.length - 1 = b'.length + (p + e.length) from by
      simp; omega]
    rw [List.drop_append]

/-! ### Facts about the concrete `rpiwifi` markers -/

theorem bmNe : beginMark rpiwifi ≠ [] := by decide

theorem emNe : endMark rpiwifi ≠ [] := by decide

theorem newline_not_mem_bm : '\n' ∉ beginMark rpiwifi := by decide

theorem newline_not_mem_em : '\n' ∉ endMark rpiwifi := by decide

theorem bm_border_free :
    ∀ k < (beginMark rpiwifi).length, 0 < k →
      ¬ ((beginMark rpiwifi).drop k <+: beginMark rpiwifi) := by decide

theorem em_border_free :
    ∀ k < (endMark rpiwifi).length, 0 < k →
      ¬ ((endMark rpiwifi).drop k <+: endMark rpiwifi) := by decide

theorem em_drop_not_prefix_bm :
    ∀ k < (endMark rpiwifi).length, 0 < k →
      ¬ ((endMark rpiwifi).drop k <+: beginMark rpiwifi) := by decide

theorem bm_drop_not_prefix_em :
    ∀ k < (beginMark rpiwifi).length, 0 < k →
      ¬ ((beginMark rpiwifi).drop k <+: endMark rpiwifi) := by decide

theorem em_not_infix_bm : ¬ (endMark rpiwifi <:+: beginMark rpiwifi) := by decide

theorem bm_not_prefix_em : ¬ (beginMark rpiwifi <+: endMark rpiwifi) := by decide

/-- No occurrence of `pat` in `P ++ u` given none in `P`, `u` too short to
contain one, and no straddling decomposition. -/
theorem not_infix_append_of_no_straddle {pat P u : List Char}
    (hP : ¬ pat <:+: P) (hlen : u.length < pat.length)
    (hstrad : ∀ k, 0 < k → k < pat.length → ¬ (pat.drop k <+: u)) :
    ¬ pat <:+: P ++ u := by
  intro h
  rcases infix_append_split h with h | h | ⟨x₁, y₁, hx1, hy1, _, hpre, heq⟩
  · exact hP h
  · exact absurd h.length_le (by omega)
  · have hlens := congrArg List.length heq
    rw [List.length_append] at hlens
    have hy1len : 0 < y₁.length := List.length_pos.mpr hy1
    have hx1len : 0 < x₁.length := List.length_pos.mpr hx1
    have hy : y₁ = pat.drop x₁.length := by rw [heq, List.drop_left]
    exact hstrad x₁.length hx1len (by omega) (hy ▸ hpre)

theorem take_append_of_le {a z : List Char} {n : Nat} (h : n ≤ a.length) :
    (a ++ z).take n = a.take n := by
  rw [List.take_append_eq_append_take, show n - a.length = 0 from by omega,
    List.take_zero, List.append_nil]

theorem not_bm_infix_P_take {P : List Char} (hP : ¬ beginMark rpiwifi <:+: P) :
    ¬ beginMark rpiwifi <:+:
      P ++ (beginMark rpiwifi).take ((beginMark rpiwifi).length - 1) := by
  apply not_infix_append_of_no_straddle hP
  · rw [List.length_take]
    have : 0 < (beginMark rpiwifi).length := by decide
    omega
  · intro k hk0 hk hpre
    exact bm_border_free k hk hk0 (hpre.trans (List.take_prefix _ _))

/-- Removing from `P ++ entryBlock` (with no begin marker occurring in `P`)
deletes everything from the begin marker through the end marker, leaving `P`
followed by the newline that was written after the end marker. -/
theorem remove_P_block {P e : List Char} (hP : ¬ beginMark rpiwifi <:+: P) :
    remove_entry_from_config (P ++ entryBlock rpiwifi e) rpiwifi = P ++ ['\n'] := by
  have hT : entryBlock rpiwifi e =
      beginMark rpiwifi ++ (('\n' :: (e ++ ['\n'])) ++ (endMark rpiwifi ++ ['\n'])) := by
    simp [entryBlock]
  have hE : lastEndPos (endMark rpiwifi)
      (('\n' :: (e ++ ['\n'])) ++ (endMark rpiwifi ++ ['\n'])) =
      some ('\n' :: (e ++ ['\n'])).length :=
    lastEndPos_sandwich emNe newline_not_mem_em (by simp)
  show reSubEmpty _ _ = _
  rw [hT, reSub_block_append bmNe ?side, reSub_match_head bmNe hE]
  · rw [List.drop_append ((endMark rpiwifi).length), List.drop_left,
      reSub_no_match (by decide : ¬ beginMark rpiwifi <:+: ['\n'])]
  case side =>
    rw [take_append_of_le (by omega)]
    exact not_bm_infix_P_take hP

/-! ### More occurrence helpers -/

theorem mem_of_getLast? {l : List Char} {a : Char} (h : l.getLast? = some a) : a ∈ l := by
  rw [List.getLast?_eq_getElem? l] at h
  exact List.getElem?_mem h

theorem mem_of_prefix_cons {y u : List Char} {c : Char} (h : y <+: c :: u) (hy : y ≠ []) :
    c ∈ y := by
  cases y with
  | nil => exact absurd rfl hy
  | cons a t =>
    obtain ⟨r, hr⟩ := h
    rw [List.cons_append] at hr
    rw [List.cons.injEq] at hr
    rw [hr.1]
    exact List.mem_cons_self _ _

theorem mem_of_suffix_concat {x w : List Char} {c : Char} (h : x <:+ w ++ [c])
    (hx : x ≠ []) : c ∈ x := by
  obtain ⟨a, ha⟩ := h
  have h1 : (a ++ x).getLast? = x.getLast? := List.getLast?_append_of_ne_nil _ hx
  rw [ha, List.getLast?_concat] at h1
  exact mem_of_getLast? h1.symm

theorem not_infix_cons_of {p l : List Char} {c : Char} (hp : p ≠ []) (hc : c ∉ p)
    (hl : ¬ p <:+: l) : ¬ p <:+: c :: l := by
  intro h
  rcases List.infix_cons_iff.mp h with h | h
  · exact hc (mem_of_prefix_cons h hp)
  · exact hl h

/-- No occurrence of the begin marker anywhere in the tail of an entry block,
provided the entry itself contains none. -/
theorem not_bm_infix_tail {e : List Char} (he : ¬ beginMark rpiwifi <:+: e) :
    ¬ beginMark rpiwifi <:+: '\n' :: (e ++ '\n' :: (endMark rpiwifi ++ ['\n'])) := by
  apply not_infix_cons_of bmNe newline_not_mem_bm
  intro h
  rcases infix_append_split h with h | h | ⟨x₁, y₁, hx1, hy1, _, hpre, heq⟩
  · exact he h
  · revert h
    apply not_infix_cons_of bmNe newline_not_mem_bm
    intro h
    rcases infix_append_split h with h | h | ⟨x₁, y₁, hx1, hy1, _, hpre, heq⟩
    · have h1 := h.length_le
      have h2 : (beginMark rpiwifi).length = 22 := by decide
      have h3 : (endMark rpiwifi).length = 20 := by decide
      omega
    · have h1 := h.length_le
      have h2 : (beginMark rpiwifi).length = 22 := by decide
      simp at h1
      omega
    · apply newline_not_mem_bm
      rw [heq]
      exact List.mem_append_right x₁ (mem_of_prefix_cons hpre hy1)
  · apply newline_not_mem_bm
    rw [heq]
    exact List.mem_append_right x₁ (mem_of_prefix_cons hpre hy1)

/-! ### Occurrence counting -/

theorem occCount_eq_zero_of_no_occurrence {pat : List Char} :
    ∀ {s : List Char}, ¬ pat <:+: s → occCount pat s = 0 := by
  intro s
  induction s with
  | nil => intro _; rfl
  | cons c rest ih =>
    intro h
    rw [occCount, if_neg fun hp => h hp.isInfix, ih fun hi => h (List.infix_cons hi)]

theorem occCount_append_of_no_occ {pat : List Char} :
    ∀ (x y : List Char), (∀ i < x.length, ¬ pat <+: (x ++ y).drop i) →
      occCount pat (x ++ y) = occCount pat y := by
  intro x
  induction x with
  | nil => intro y _; rfl
  | cons c x' ih =>
    intro y h
    have h0 : ¬ pat <+: c :: (x' ++ y) := by
      have := h 0 (by simp)
      simpa using this
    rw [List.cons_append, occCount, if_neg h0, ih y ?_, Nat.zero_add]
    intro i hi hp
    apply h (i + 1) (by simp; omega)
    rw [List.cons_append, List.drop_succ_cons]
    exact hp

theorem occCount_append_no_straddle {pat x y : List Char} (hpat : pat ≠ [])
    (h : ¬ pat <:+: x ++ y.take (pat.length - 1)) :
    occCount pat (x ++ y) = occCount pat y :=
  occCount_append_of_no_occ x y (no_occurrence_in_drops hpat h)

theorem occCount_self_head {pat T : List Char} (hpat : pat ≠ [])
    (hB : ∀ k < pat.length, 0 < k → ¬ (pat.drop k <+: pat)) :
    occCount pat (pat ++ T) = 1 + occCount pat T := by
  cases hp : pat with
  | nil => exact absurd hp hpat
  | cons c p' =>
    rw [← hp]
    have h1 : pat ++ T = c :: (p' ++ T) := by rw [hp, List.cons_append]
    rw [h1, occCount, if_pos (by rw [← h1]; exact List.prefix_append pat T)]
    have h2 : occCount pat (p' ++ T) = occCount pat T := by
      apply occCount_append_of_no_occ
      intro i hi hpre
      have hdrop : (p' ++ T).drop i = pat.drop (1 + i) ++ T := by
        rw [List.drop_append_eq_append_drop, show i - p'.length = 0 from by omega,
          List.drop_zero, hp, Nat.add_comm 1 i, List.drop_succ_cons]
      rw [hdrop] at hpre
      rcases prefix_append_cases hpre with ⟨hl, _⟩ | ⟨_, hpre2⟩
      · rw [List.length_drop] at hl
        have : 0 < pat.length := List.length_pos.mpr hpat
        omega
      · have hplen : p'.length + 1 = pat.length := by rw [hp]; simp
        exact hB (1 + i) (by omega) (by omega) hpre2
    rw [h2]

theorem not_em_infix_A {e : List Char} (he : ¬ endMark rpiwifi <:+: e) :
    ¬ endMark rpiwifi <:+: '\n' :: (e ++ ['\n']) := by
  apply not_infix_cons_of emNe newline_not_mem_em
  intro h
  rcases infix_append_split h with h | h | ⟨x₁, y₁, hx1, hy1, _, hpre, heq⟩
  · exact he h
  · have h1 := h.length_le
    have h2 : (endMark rpiwifi).length = 20 := by decide
    simp at h1
    omega
  · apply newline_not_mem_em
    rw [heq]
    exact List.mem_append_right x₁ (mem_of_prefix_cons hpre hy1)

theorem occCount_em_tail {e : List Char} (he : ¬ endMark rpiwifi <:+: e) :
    occCount (endMark rpiwifi) ('\n' :: (e ++ '\n' :: (endMark rpiwifi ++ ['\n']))) = 1 := by
  have hA : '\n' :: (e ++ '\n' :: (endMark rpiwifi ++ ['\n'])) =
      ('\n' :: (e ++ ['\n'])) ++ (endMark rpiwifi ++ ['\n']) := by simp
  rw [hA, occCount_append_of_no_occ _ _ ?pos,
    occCount_self_head emNe em_border_free,
    occCount_eq_zero_of_no_occurrence (by decide : ¬ endMark rpiwifi <:+: ['\n'])]
  case pos =>
    intro i hi hpre
    have hdq : (('\n' :: (e ++ ['\n'])) ++ (endMark rpiwifi ++ ['\n'])).drop i =
        ('\n' :: (e ++ ['\n'])).drop i ++ (endMark rpiwifi ++ ['\n']) := by
      rw [List.drop_append_eq_append_drop,
        show i - ('\n' :: (e ++ ['\n'])).length = 0 from by omega, List.drop_zero]
    rw [hdq] at hpre
    rcases prefix_append_cases hpre with ⟨_, hp⟩ | ⟨_, hp⟩
    · exact not_em_infix_A he (infix_of_prefix_drop hp)
    · apply newline_not_mem_em
      apply hp.subset
      have hsuf : ('\n' :: (e ++ ['\n'])).drop i <:+ ('\n' :: e) ++ ['\n'] := by
        rw [show ('\n' :: e) ++ ['\n'] = '\n' :: (e ++ ['\n']) from by simp]
        exact List.drop_suffix i _
      apply mem_of_suffix_concat hsuf
      intro hnil
      rw [List.drop_eq_nil_iff] at hnil
      omega

/-- At most / exactly one begin marker in `P ++ entryBlock e`. -/
theorem occ_bm_P_block {P e : List Char} (hP : ¬ beginMark rpiwifi <:+: P)
    (he : ¬ beginMark rpiwifi <:+: e) :
    occCount (beginMark rpiwifi) (P ++ entryBlock rpiwifi e) = 1 := by
  rw [occCount_append_no_straddle bmNe ?side]
  · rw [show entryBlock rpiwifi e =
        beginMark rpiwifi ++ ('\n' :: (e ++ '\n' :: (endMark rpiwifi ++ ['\n']))) from rfl,
      occCount_self_head bmNe bm_border_free,
      occCount_eq_zero_of_no_occurrence (not_bm_infix_tail he)]
  case side =>
    rw [show entryBlock rpiwifi e =
        beginMark rpiwifi ++ ('\n' :: (e ++ '\n' :: (endMark rpiwifi ++ ['\n']))) from rfl,
      take_append_of_le (by omega)]
    exact not_bm_infix_P_take hP

/-- Exactly one end marker in `P ++ entryBlock e`. -/
theorem occ_em_P_block {P e : List Char} (hP : ¬ endMark rpiwifi <:+: P)
    (he : ¬ endMark rpiwifi <:+: e) :
    occCount (endMark rpiwifi) (P ++ entryBlock rpiwifi e) = 1 := by
  rw [occCount_append_no_straddle emNe ?side]
  · rw [show entryBlock rpiwifi e =
        beginMark rpiwifi ++ ('\n' :: (e ++ '\n' :: (endMark rpiwifi ++ ['\n']))) from rfl,
      occCount_append_of_no_occ _ _ ?bmpos]
    · exact occCount_em_tail he
    case bmpos =>
      intro i hi hpre
      have hdq : (beginMark rpiwifi ++ ('\n' :: (e ++ '\n' :: (endMark rpiwifi ++ ['\n'])))).drop i =
          (beginMark rpiwifi).drop i ++ ('\n' :: (e ++ '\n' :: (endMark rpiwifi ++ ['\n']))) := by
        rw [List.drop_append_eq_append_drop,
          show i - (beginMark rpiwifi).length = 0 from by omega, List.drop_zero]
      rw [hdq] at hpre
      rcases prefix_append_cases hpre with ⟨_, hp⟩ | ⟨hl, hp⟩
      · exact em_not_infix_bm (infix_of_prefix_drop hp)
      · have hi0 : 0 < i := by
          rw [List.length_drop] at hl
          have h22 : (beginMark rpiwifi).length = 22 := by decide
          have h20 : (endMark rpiwifi).length = 20 := by decide
          omega
        exact bm_drop_not_prefix_em i hi hi0 hp
  case side =>
    rw [show entryBlock rpiwifi e =
        beginMark rpiwifi ++ ('\n' :: (e ++ '\n' :: (endMark rpiwifi ++ ['\n']))) from rfl,
      take_append_of_le (by decide)]
    apply not_infix_append_of_no_straddle hP
    · rw [List.length_take]
      have h22 : (beginMark rpiwifi).length = 22 := by decide
      have h20 : (endMark rpiwifi).length = 20 := by decide
      omega
    · intro k hk0 hk hpre
      exact em_drop_not_prefix_bm k hk hk0 (hpre.trans (List.take_prefix _ _))

/-- `remove_entry_from_config` is the identity when no begin marker occurs. -/
theorem remove_no_marker {s : List Char} (h : ¬ beginMark rpiwifi <:+: s) :
    remove_entry_from_config s rpiwifi = s :=
  reSub_no_match h

theorem add_entry_eq (entry content : List Char) :
    add_entry_to_config entry content rpiwifi =
      remove_entry_from_config content rpiwifi ++ entryBlock rpiwifi entry := rfl

/-! ### Claim C1: add-then-remove round trip -/

set_option maxRecDepth 40000

/-- C1, counterexample: the round trip is not byte-identical.  Starting from
`"abc\n"` (which contains no begin/end markers at all, malformed or not),
adding an entry and removing it again yields `"abc\n\n"`: the newline written
after the end marker is not part of the removal pattern and survives. -/
theorem roundtrip_not_byte_identical :
    remove_entry_from_config (add_entry_to_config "ENTRY".data "abc\n".data rpiwifi) rpiwifi ≠
      "abc\n".data ∧
    remove_entry_from_config (add_entry_to_config "ENTRY".data "abc\n".data rpiwifi) rpiwifi =
      "abc\n\n".data := by
  constructor
  · decide
  · decide

/-- C1, amended: for every file content with no pre-existing (possibly
malformed) begin/end markers for the identifier, `add_entry_to_config`
followed by `remove_entry_from_config` restores the file to its content
before the add PLUS one trailing newline (the newline appended after the end
marker, which the removal pattern does not match). -/
theorem roundtrip_leaves_trailing_newline {content entry : List Char}
    (h1 : ¬ beginMark rpiwifi <:+: content) (_h2 : ¬ endMark rpiwifi <:+: content) :
    remove_entry_from_config (add_entry_to_config entry content rpiwifi) rpiwifi =
      content ++ ['\n'] := by
  rw [add_entry_eq, remove_no_marker h1]
  exact remove_P_block h1

/-- C1, witness: the amended round-trip theorem applied at a concrete file
content and entry. -/
theorem roundtrip_leaves_trailing_newline_witness :
    remove_entry_from_config (add_entry_to_config "ENTRY".data "abc\n".data rpiwifi) rpiwifi =
      "abc\n".data ++ ['\n'] :=
  roundtrip_leaves_trailing_newline (by decide) (by decide)

/-! ### Claim C2: double add -/

theorem not_infix_snoc {p x : List Char} {c : Char} (hp : ¬ p <:+: x) (hc : c ∉ p)
    (hlen : 1 < p.length) : ¬ p <:+: x ++ [c] := by
  apply not_infix_append_of_no_straddle hp (by simp; omega)
  intro k hk0 hk hpre
  have hne : p.drop k ≠ [] := by
    intro h
    rw [List.drop_eq_nil_iff] at h
    omega
  exact hc (List.drop_subset k p (mem_of_prefix_cons hpre hne))

/-- C2, counterexample: adding the same entry twice is not byte-identical to
adding it once; the second add leaves an extra newline (the survivor of the
internal removal) between the original content and the block. -/
theorem double_add_not_byte_identical :
    add_entry_to_config "ENTRY".data
        (add_entry_to_config "ENTRY".data "abc\n".data rpiwifi) rpiwifi ≠
      add_entry_to_config "ENTRY".data "abc\n".data rpiwifi ∧
    add_entry_to_config "ENTRY".data
        (add_entry_to_config "ENTRY".data "abc\n".data rpiwifi) rpiwifi =
      "abc\n\n".data ++ entryBlock rpiwifi "ENTRY".data := by
  constructor
  · decide
  · decide

/-- C2, amended: applying `add_entry_to_config` twice with the same identifier
and entry yields a file with exactly one delimited entry (one begin marker and
one end marker), but it is not byte-identical to applying it once: the result
is the once-result with one extra newline inserted between the original
content and the block. -/
theorem double_add_single_entry_extra_newline {content entry : List Char}
    (h1 : ¬ beginMark rpiwifi <:+: content) (h2 : ¬ endMark rpiwifi <:+: content)
    (h3 : ¬ beginMark rpiwifi <:+: entry) (h4 : ¬ endMark rpiwifi <:+: entry) :
    add_entry_to_config entry (add_entry_to_config entry content rpiwifi) rpiwifi =
      (content ++ ['\n']) ++ entryBlock rpiwifi entry ∧
    occCount (beginMark rpiwifi)
      (add_entry_to_config entry (add_entry_to_config entry content rpiwifi) rpiwifi) = 1 ∧
    occCount (endMark rpiwifi)
      (add_entry_to_config entry (add_entry_to_config entry content rpiwifi) rpiwifi) = 1 := by
  have heq : add_entry_to_config entry (add_entry_to_config entry content rpiwifi) rpiwifi =
      (content ++ ['\n']) ++ entryBlock rpiwifi entry := by
    rw [add_entry_eq entry (add_entry_to_config entry content rpiwifi), add_entry_eq,
      remove_no_marker h1, remove_P_block h1]
  refine ⟨heq, ?_, ?_⟩
  · rw [heq]
    exact occ_bm_P_block (not_infix_snoc h1 newline_not_mem_bm (by decide)) h3
  · rw [heq]
    exact occ_em_P_block (not_infix_snoc h2 newline_not_mem_em (by decide)) h4

/-- C2, witness: the amended double-add theorem applied at a concrete file
content and entry. -/
theorem double_add_single_entry_extra_newline_witness :
    add_entry_to_config "ENTRY".data
        (add_entry_to_config "ENTRY".data "abc\n".data rpiwifi) rpiwifi =
      ("abc\n".data ++ ['\n']) ++ entryBlock rpiwifi "ENTRY".data ∧
    occCount (beginMark rpiwifi)
      (add_entry_to_config "ENTRY".data
        (add_entry_to_config "ENTRY".data "abc\n".data rpiwifi) rpiwifi) = 1 ∧
    occCount (endMark rpiwifi)
      (add_entry_to_config "ENTRY".data
        (add_entry_to_config "ENTRY".data "abc\n".data rpiwifi) rpiwifi) = 1 :=
  double_add_single_entry_extra_newline (by decide) (by decide) (by decide) (by decide)

/-! ### Claim C3: removal across two blocks -/

/-- C3, counterexample: with two complete begin/end spans for the same
identifier, the removal regex is greedy, not non-greedy: the single match runs
from the first begin marker to the LAST end marker, so the text `MID` lying
between the two blocks is deleted along with them. -/
theorem remove_deletes_text_between_blocks :
    remove_entry_from_config
        (beginMark rpiwifi ++ "a".data ++ endMark rpiwifi ++ "MID".data ++
          beginMark rpiwifi ++ "b".data ++ endMark rpiwifi) rpiwifi = [] ∧
    ¬ ("MID".data <:+:
      remove_entry_from_config
        (beginMark rpiwifi ++ "a".data ++ endMark rpiwifi ++ "MID".data ++
          beginMark rpiwifi ++ "b".data ++ endMark rpiwifi) rpiwifi) := by
  constructor
  · decide
  · decide

/-- C3, amended: on content made of two complete begin/end spans with text
between them, `remove_entry_from_config` deletes the whole longest span - from
the first begin marker through the last end marker - so the text between the
two blocks is deleted as well and nothing remains. -/
theorem remove_greedy_longest_span (m1 mid m2 : List Char) :
    remove_entry_from_config
        (beginMark rpiwifi ++ (m1 ++ (endMark rpiwifi ++ (mid ++
          (beginMark rpiwifi ++ (m2 ++ endMark rpiwifi)))))) rpiwifi = [] := by
  have hw : m1 ++ (endMark rpiwifi ++ (mid ++ (beginMark rpiwifi ++ (m2 ++ endMark rpiwifi)))) =
      (m1 ++ (endMark rpiwifi ++ (mid ++ (beginMark rpiwifi ++ m2)))) ++ endMark rpiwifi := by
    simp
  have hwlen : 1 ≤ (m1 ++ (endMark rpiwifi ++ (mid ++ (beginMark rpiwifi ++ m2)))).length := by
    have h20 : (endMark rpiwifi).length = 20 := by decide
    simp [List.length_append]
    omega
  have hE : lastEndPos (endMark rpiwifi)
      ((m1 ++ (endMark rpiwifi ++ (mid ++ (beginMark rpiwifi ++ m2)))) ++ endMark rpiwifi) =
      some (m1 ++ (endMark rpiwifi ++ (mid ++ (beginMark rpiwifi ++ m2)))).length :=
    lastEndPos_suffix_exact emNe hwlen
  show reSubEmpty _ _ = _
  rw [hw, reSub_match_head bmNe hE, List.drop_append ((endMark rpiwifi).length),
    List.drop_length]
  rfl

/-! ### Claim C4: at most one delimited entry, under any operation sequence -/

/-- No occurrence of either `rpiwifi` marker in `s`. -/
def MarkerFree (s : List Char) : Prop :=
  ¬ beginMark rpiwifi <:+: s ∧ ¬ endMark rpiwifi <:+: s

/-- Invariant of the managed file: either it is marker-free, or it is a
marker-free prefix followed by exactly one entry block. -/
def GoodState (s : List Char) : Prop :=
  MarkerFree s ∨ ∃ P e, MarkerFree P ∧ MarkerFree e ∧ s = P ++ entryBlock rpiwifi e

theorem markerFree_snoc_newline {P : List Char} (h : MarkerFree P) :
    MarkerFree (P ++ ['\n']) :=
  ⟨not_infix_snoc h.1 newline_not_mem_bm (by decide),
    not_infix_snoc h.2 newline_not_mem_em (by decide)⟩

theorem goodState_remove {s : List Char} (h : GoodState s) :
    GoodState (remove_entry_from_config s rpiwifi) := by
  rcases h with hf | ⟨P, e, hP, he, rfl⟩
  · rw [remove_no_marker hf.1]
    exact Or.inl hf
  · rw [remove_P_block hP.1]
    exact Or.inl (markerFree_snoc_newline hP)

theorem goodState_add {s e : List Char} (h : GoodState s) (he : MarkerFree e) :
    GoodState (add_entry_to_config e s rpiwifi) := by
  rw [add_entry_eq]
  rcases h with hf | ⟨P, e', hP, he', rfl⟩
  · rw [remove_no_marker hf.1]
    exact Or.inr ⟨s, e, hf, he, rfl⟩
  · rw [remove_P_block hP.1]
    exact Or.inr ⟨P ++ ['\n'], e, markerFree_snoc_newline hP, he, rfl⟩

theorem goodState_counts {s : List Char} (h : GoodState s) :
    occCount (beginMark rpiwifi) s ≤ 1 ∧ occCount (endMark rpiwifi) s ≤ 1 := by
  rcases h with hf | ⟨P, e, hP, he, rfl⟩
  · rw [occCount_eq_zero_of_no_occurrence hf.1, occCount_eq_zero_of_no_occurrence hf.2]
    exact ⟨by omega, by omega⟩
  · rw [occ_bm_P_block hP.1 he.1, occ_em_P_block hP.2 he.2]
    exact ⟨le_refl 1, le_refl 1⟩

theorem goodState_applyOps :
    ∀ (ops : List ConfigOp) (s : List Char), GoodState s →
      (∀ e, ConfigOp.add e ∈ ops → MarkerFree e) →
      GoodState (applyConfigOps rpiwifi s ops) := by
  intro ops
  induction ops with
  | nil => intro s h _; exact h
  | cons op rest ih =>
    intro s h hadds
    show GoodState (List.foldl (applyConfigOp rpiwifi) (applyConfigOp rpiwifi s op) rest)
    apply ih
    · cases op with
      | add e => exact goodState_add h (hadds e (List.mem_cons_self _ _))
      | remove => exact goodState_remove h
    · intro e hmem
      exact hadds e (List.mem_cons_of_mem _ hmem)

/-- C4: starting from a file with no markers for the identifier, after any
sequence of `add_entry_to_config` / `remove_entry_from_config` operations
(whose added entries themselves contain no markers) the file contains at most
one begin marker and at most one end marker - at most one delimited entry. -/
theorem at_most_one_entry_invariant (ops : List ConfigOp) (content : List Char)
    (h0 : ¬ beginMark rpiwifi <:+: content ∧ ¬ endMark rpiwifi <:+: content)
    (hadds : ∀ e, ConfigOp.add e ∈ ops →
      ¬ beginMark rpiwifi <:+: e ∧ ¬ endMark rpiwifi <:+: e) :
    occCount (beginMark rpiwifi) (applyConfigOps rpiwifi content ops) ≤ 1 ∧
    occCount (endMark rpiwifi) (applyConfigOps rpiwifi content ops) ≤ 1 :=
  goodState_counts (goodState_applyOps ops content (Or.inl h0) hadds)

/-- C4, witness: the invariant applied to a concrete operation sequence
(add, add again, remove, add) on a concrete starting file. -/
theorem at_most_one_entry_invariant_witness :
    occCount (beginMark rpiwifi)
      (applyConfigOps rpiwifi "abc\n".data
        [ConfigOp.add "E1".data, ConfigOp.add "E2".data, ConfigOp.remove,
          ConfigOp.add "E3".data]) ≤ 1 ∧
    occCount (endMark rpiwifi)
      (applyConfigOps rpiwifi "abc\n".data
        [ConfigOp.add "E1".data, ConfigOp.add "E2".data, ConfigOp.remove,
          ConfigOp.add "E3".data]) ≤ 1 :=
  at_most_one_entry_invariant _ _ (by constructor <;> decide) (by
    intro e hmem
    simp only [List.mem_cons, List.not_mem_nil, or_false, reduceCtorEq,
      ConfigOp.add.injEq, false_or] at hmem
    rcases hmem with rfl | rfl | rfl
    · exact ⟨by decide, by decide⟩
    · exact ⟨by decide, by decide⟩
    · exact ⟨by decide, by decide⟩)

/-! ### Claim C9: removal is a no-op without a complete span -/

theorem hasCompleteSpan_eq_true_iff {bm em s : List Char} (hbm : bm ≠ []) (hem : em ≠ []) :
    hasCompleteSpan bm em s = true ↔
      ∃ i p, bm <+: s.drop i ∧ 1 ≤ p ∧ em <+: (s.drop (i + bm.length)).drop p := by
  rw [hasCompleteSpan]
  simp only [List.any_eq_true, List.mem_range, Bool.and_eq_true, decide_eq_true_eq]
  constructor
  · rintro ⟨i, _, hbm1, p, _, h1, h2⟩
    exact ⟨i, p, hbm1, h1, h2⟩
  · rintro ⟨i, p, h1, h2, h3⟩
    refine ⟨i, ?_, h1, p, ?_, h2, h3⟩
    · have hne : s.drop i ≠ [] := fun hh => hbm (List.prefix_nil.mp (hh ▸ h1))
      by_contra hge
      exact hne (List.drop_eq_nil_iff.mpr (by omega))
    · have hne : (s.drop (i + bm.length)).drop p ≠ [] :=
        fun hh => hem (List.prefix_nil.mp (hh ▸ h3))
      by_contra hge
      exact hne (List.drop_eq_nil_iff.mpr (by omega))

theorem hasCompleteSpan_cons_false {bm em : List Char} (hbm : bm ≠ []) (hem : em ≠ [])
    {c : Char} {rest : List Char} (h : hasCompleteSpan bm em (c :: rest) = false) :
    hasCompleteSpan bm em rest = false := by
  by_contra htrue
  rw [Bool.not_eq_false] at htrue
  obtain ⟨i, p, h1, h2, h3⟩ := (hasCompleteSpan_eq_true_iff hbm hem).mp htrue
  have hup : hasCompleteSpan bm em (c :: rest) = true := by
    apply (hasCompleteSpan_eq_true_iff hbm hem).mpr
    refine ⟨i + 1, p, ?_, h2, ?_⟩
    · rw [List.drop_succ_cons]
      exact h1
    · rw [show i + 1 + bm.length = (i + bm.length) + 1 from by omega, List.drop_succ_cons]
      exact h3
  rw [h] at hup
  cases hup

/-- C9: if the file content contains no complete begin-to-end marker span for
the identifier - in particular, malformed content with an unterminated begin
marker - then `remove_entry_from_config` leaves the content unchanged. -/
theorem remove_noop_without_complete_span :
    ∀ {s : List Char},
      hasCompleteSpan (beginMark rpiwifi) (endMark rpiwifi) s = false →
      remove_entry_from_config s rpiwifi = s := by
  intro s
  induction s with
  | nil => intro _; rfl
  | cons c rest ih =>
    intro h
    have hnone : matchBlockLen (beginMark rpiwifi) (endMark rpiwifi) (c :: rest) = none := by
      cases hm : matchBlockLen (beginMark rpiwifi) (endMark rpiwifi) (c :: rest) with
      | none => rfl
      | some n =>
        obtain ⟨hpre, p, hp1, hp2, _⟩ := matchBlockLen_some_inv hm
        have hup : hasCompleteSpan (beginMark rpiwifi) (endMark rpiwifi) (c :: rest) = true := by
          apply (hasCompleteSpan_eq_true_iff bmNe emNe).mpr
          exact ⟨0, p, by simpa using hpre, hp1, by simpa using hp2⟩
        rw [h] at hup
        cases hup
    show reSubEmpty _ (c :: rest) = c :: rest
    rw [reSub_cons_none hnone]
    have := ih (hasCompleteSpan_cons_false bmNe emNe h)
    rw [show reSubEmpty (matchBlockLen (beginMark rpiwifi) (endMark rpiwifi)) rest =
      remove_entry_from_config rest rpiwifi from rfl, this]

/-- C9, witness: removal really no-ops on a concrete malformed content with an
unterminated begin marker. -/
theorem remove_noop_without_complete_span_witness :
    remove_entry_from_config "#<begin_rpiwifi_entry>\nstale".data rpiwifi =
      "#<begin_rpiwifi_entry>\nstale".data :=
  remove_noop_without_complete_span (by decide)

/-! ### Claim C10: the appended begin marker gets no leading separator -/

/-- C10: `add_entry_to_config` appends the begin marker directly after the
existing content, with no leading separator: the block starts exactly at
offset `content.length`, and the character immediately before it is the last
character of the original content - so when the content does not end in a
newline, the begin marker is concatenated onto the file's last existing line,
and it starts at the beginning of a line only when the content is empty or
ends with a newline. -/
theorem add_appends_without_separator {entry content : List Char}
    (h : ¬ beginMark rpiwifi <:+: content) :
    add_entry_to_config entry content rpiwifi = content ++ entryBlock rpiwifi entry ∧
    (add_entry_to_config entry content rpiwifi).drop content.length =
      entryBlock rpiwifi entry ∧
    (∀ c, content.getLast? = some c →
      (add_entry_to_config entry content rpiwifi)[content.length - 1]? = some c) := by
  have heq : add_entry_to_config entry content rpiwifi =
      content ++ entryBlock rpiwifi entry := by
    rw [add_entry_eq, remove_no_marker h]
  refine ⟨heq, ?_, ?_⟩
  · rw [heq, List.drop_left]
  · intro c hc
    have hne : content ≠ [] := by
      intro hnil
      rw [hnil] at hc
      cases hc
    have hlt : content.length - 1 < content.length := by
      have := List.length_pos.mpr hne
      omega
    rw [heq, List.getElem?_append_left hlt, ← List.getLast?_eq_getElem?]
    exact hc

/-- C10, witness: on the concrete content `"option x"` (no trailing newline),
the begin marker lands right after the final character `x`, in the middle of
that line. -/
theorem add_appends_without_separator_witness :
    add_entry_to_config "ENTRY".data "option x".data rpiwifi =
      "option x".data ++ entryBlock rpiwifi "ENTRY".data ∧
    (add_entry_to_config "ENTRY".data "option x".data rpiwifi)[("option x".data).length - 1]? =
      some 'x' :=
  ⟨(add_appends_without_separator (by decide)).1,
    (add_appends_without_separator (by decide)).2.2 'x' (by decide)⟩

/-! ### Claim C8: the mode query has exactly two outcomes -/

/-- C8: `get_mode` returns `AP_MODE` exactly when the `systemctl -q is-active
hostapd` query exits with status 0, and `CLI_MODE` in every other case; no
third value is ever returned. -/
theorem get_mode_two_states (status : Int) :
    (get_mode status = AP_MODE ↔ status = 0) ∧
    (status ≠ 0 → get_mode status = CLI_MODE) ∧
    (get_mode status = AP_MODE ∨ get_mode status = CLI_MODE) := by
  by_cases h : status = 0
  · rw [get_mode, if_pos h]
    exact ⟨⟨fun _ => h, fun _ => rfl⟩, fun hne => absurd h hne, Or.inl rfl⟩
  · rw [get_mode, if_neg h]
    exact ⟨⟨fun hc => absurd hc (by decide), fun h0 => absurd h0 h⟩, fun _ => rfl, Or.inr rfl⟩

/-- C8, witness: the mode query evaluated at the two kinds of exit status. -/
theorem get_mode_two_states_witness :
    get_mode 1 = CLI_MODE ∧ (get_mode 0 = AP_MODE ↔ (0 : Int) = 0) :=
  ⟨(get_mode_two_states 1).2.1 (by decide), (get_mode_two_states 0).1⟩

/-! ### Claim C6: client mode requires a password -/

/-- C6: for every ssid argument, every `wpa_passphrase` output and every
starting state, calling `set_cli_mode` with a missing (`none`) or empty
(`some ""`) password returns `false` and leaves the state untouched: no file
is written and no external process is invoked. -/
theorem set_cli_mode_requires_password (interface : String) (ssid : Option String)
    (wpaOut : List Char) (st : SysState) :
    set_cli_mode interface ssid none wpaOut st = (false, st) ∧
    set_cli_mode interface ssid (some "") wpaOut st = (false, st) := by
  constructor <;> rfl

/-! ### Claim C5: deduplicate (last wins) and sort by quality, descending -/

/-- Invariant of the dict comprehension, built left to right over `cells`:
keys are distinct, each stored cell carries its key as ssid and is the
last-seen cell with that ssid, and every scanned ssid has an entry. -/
theorem filter_singleton_eq_nil {f : Cell → Bool} {c : Cell} (h : f c = false) :
    List.filter f [c] = [] := by
  simp [List.filter_cons, h]

theorem filter_singleton_eq_self {f : Cell → Bool} {c : Cell} (h : f c = true) :
    List.filter f [c] = [c] := by
  simp [List.filter_cons, h]

def CellDictGood (cells : List Cell) (m : List (String × Cell)) : Prop :=
  (m.map Prod.fst).Nodup ∧
  (∀ p ∈ m, p.2.ssid = p.1 ∧
    (cells.filter (fun x => x.ssid == p.1)).getLast? = some p.2) ∧
  (∀ x ∈ cells, ∃ p ∈ m, p.1 = x.ssid)

theorem cellDictGood_step {cells : List Cell} {m : List (String × Cell)} {c : Cell}
    (h : CellDictGood cells m) : CellDictGood (cells ++ [c]) (updateOrAppend m c) := by
  obtain ⟨hnd, hval, hcov⟩ := h
  rw [updateOrAppend]
  split
  · -- key already present: overwrite in place
    rename_i hany
    rw [List.any_eq_true] at hany
    obtain ⟨p0, hp0mem, hp0⟩ := hany
    rw [beq_iff_eq] at hp0
    refine ⟨?_, ?_, ?_⟩
    · have hkeys : (List.map (fun p => if p.1 == c.ssid then (p.1, c) else p) m).map Prod.fst =
          m.map Prod.fst := by
        rw [List.map_map]
        apply List.map_congr_left
        intro p _
        by_cases hpc : (p.1 == c.ssid) = true
        · simp only [Function.comp_apply, if_pos hpc]
        · simp only [Function.comp_apply, if_neg hpc]
      rw [hkeys]
      exact hnd
    · intro q hq
      rw [List.mem_map] at hq
      obtain ⟨p, hpmem, hpq⟩ := hq
      by_cases hpc : (p.1 == c.ssid) = true
      · rw [if_pos hpc] at hpq
        rw [beq_iff_eq] at hpc
        subst hpq
        refine ⟨hpc.symm ▸ rfl, ?_⟩
        rw [List.filter_append,
          filter_singleton_eq_self (by rw [beq_iff_eq]; exact hpc.symm),
          List.getLast?_concat]
      · rw [if_neg hpc] at hpq
        rw [beq_iff_eq] at hpc
        subst hpq
        obtain ⟨hv1, hv2⟩ := hval p hpmem
        refine ⟨hv1, ?_⟩
        rw [List.filter_append,
          filter_singleton_eq_nil (by
            rw [beq_eq_false_iff_ne]
            exact fun hcc => hpc hcc.symm),
          List.append_nil]
        exact hv2
    · intro x hx
      rw [List.mem_append] at hx
      rcases hx with hx | hx
      · obtain ⟨p, hpmem, hpkey⟩ := hcov x hx
        refine ⟨if p.1 == c.ssid then (p.1, c) else p, List.mem_map_of_mem _ hpmem, ?_⟩
        by_cases hpc : (p.1 == c.ssid) = true
        · rw [if_pos hpc]
          exact hpkey
        · rw [if_neg hpc]
          exact hpkey
      · rw [List.mem_singleton] at hx
        refine ⟨(p0.1, c),
          List.mem_map.mpr ⟨p0, hp0mem, by rw [if_pos (beq_iff_eq.mpr hp0)]⟩, ?_⟩
        rw [hx]
        exact hp0
  · -- key absent: append a fresh pair
    rename_i hany
    have hnotin : ∀ p ∈ m, p.1 ≠ c.ssid := by
      intro p hp heq0
      apply hany
      rw [List.any_eq_true]
      exact ⟨p, hp, beq_iff_eq.mpr heq0⟩
    refine ⟨?_, ?_, ?_⟩
    · rw [List.map_append]
      apply List.Nodup.append hnd (List.nodup_singleton _)
      intro a ha hb
      rw [List.mem_singleton] at hb
      rw [List.mem_map] at ha
      obtain ⟨p, hpmem, hpa⟩ := ha
      exact hnotin p hpmem (by rw [hpa, hb])
    · intro q hq
      rw [List.mem_append] at hq
      rcases hq with hq | hq
      · obtain ⟨hv1, hv2⟩ := hval q hq
        refine ⟨hv1, ?_⟩
        rw [List.filter_append,
          filter_singleton_eq_nil (by
            rw [beq_eq_false_iff_ne]
            exact fun hcc => hnotin q hq hcc.symm),
          List.append_nil]
        exact hv2
      · rw [List.mem_singleton] at hq
        subst hq
        refine ⟨rfl, ?_⟩
        rw [List.filter_append,
          filter_singleton_eq_self (by rw [beq_iff_eq]),
          List.getLast?_concat]
    · intro x hx
      rw [List.mem_append] at hx
      rcases hx with hx | hx
      · obtain ⟨p, hpmem, hpkey⟩ := hcov x hx
        exact ⟨p, List.mem_append_left _ hpmem, hpkey⟩
      · rw [List.mem_singleton] at hx
        refine ⟨(c.ssid, c), List.mem_append_right _ (List.mem_singleton.mpr rfl), ?_⟩
        rw [hx]

theorem cellDictGood_cellDict (cells : List Cell) : CellDictGood cells (cellDict cells) := by
  induction cells using List.reverseRecOn with
  | nil =>
    refine ⟨List.nodup_nil, ?_, ?_⟩
    · intro p hp
      cases hp
    · intro x hx
      cases hx
  | append_singleton cells c ih =>
    have hfold : cellDict (cells ++ [c]) = updateOrAppend (cellDict cells) c := by
      rw [cellDict, cellDict, List.foldl_append, List.foldl_cons, List.foldl_nil]
    rw [hfold]
    exact cellDictGood_step ih

/-- C5: `list_available_wifis` returns one cell per distinct network name,
the last-seen cell with each name winning, sorted by descending signal
quality; in particular the concrete dedup-and-sort example from the
specification holds. -/
theorem list_available_wifis_spec :
    (∀ cells : List Cell,
      ((list_available_wifis cells).map Cell.ssid).Nodup ∧
      (∀ c ∈ list_available_wifis cells,
        (cells.filter (fun x => x.ssid == c.ssid)).getLast? = some c) ∧
      (∀ x ∈ cells, ∃ c ∈ list_available_wifis cells, c.ssid = x.ssid) ∧
      (list_available_wifis cells).Pairwise (fun a b => b.quality ≤ a.quality)) ∧
    list_available_wifis [⟨"A", 3⟩, ⟨"B", 5⟩, ⟨"A", 7⟩] = [⟨"A", 7⟩, ⟨"B", 5⟩] := by
  constructor
  · intro cells
    obtain ⟨hnd, hval, hcov⟩ := cellDictGood_cellDict cells
    have hperm : List.Perm (list_available_wifis cells) ((cellDict cells).map Prod.snd) :=
      List.perm_insertionSort _ _
    refine ⟨?_, ?_, ?_, ?_⟩
    · have h1 : ((cellDict cells).map Prod.snd).map Cell.ssid =
          (cellDict cells).map Prod.fst := by
        rw [List.map_map]
        apply List.map_congr_left
        intro p hp
        exact (hval p hp).1
      have h2 : List.Perm ((list_available_wifis cells).map Cell.ssid)
          ((cellDict cells).map Prod.fst) := by
        rw [← h1]
        exact hperm.map _
      exact h2.nodup_iff.mpr hnd
    · intro c hc
      have hc2 : c ∈ (cellDict cells).map Prod.snd := hperm.subset hc
      rw [List.mem_map] at hc2
      obtain ⟨p, hpmem, hpc⟩ := hc2
      obtain ⟨hv1, hv2⟩ := hval p hpmem
      rw [← hpc, hv1]
      exact hv2
    · intro x hx
      obtain ⟨p, hpmem, hpkey⟩ := hcov x hx
      exact ⟨p.2, hperm.mem_iff.mpr (List.mem_map_of_mem _ hpmem), (hval p hpmem).1.trans hpkey⟩
    · haveI : IsTotal Cell (fun a b => b.quality ≤ a.quality) :=
        ⟨fun a b => le_total b.quality a.quality⟩
      haveI : IsTrans Cell (fun a b => b.quality ≤ a.quality) :=
        ⟨fun _ _ _ h1 h2 => le_trans h2 h1⟩
      exact List.sorted_insertionSort _ _
  · decide

/-- C5, witness: the general theorem applied to the concrete scan example,
picking out the last-seen winner for network name `"A"`. -/
theorem list_available_wifis_spec_witness :
    (List.filter (fun x => x.ssid == (Cell.mk "A" 7).ssid)
      [Cell.mk "A" 3, Cell.mk "B" 5, Cell.mk "A" 7]).getLast? = some (Cell.mk "A" 7) :=
  (list_available_wifis_spec.1 [Cell.mk "A" 3, Cell.mk "B" 5, Cell.mk "A" 7]).2.1
    (Cell.mk "A" 7)
    (by rw [list_available_wifis_spec.2]; exact List.mem_cons_self _ _)

/-! ### Claim C7: the plaintext password line is scrubbed -/

theorem takeWhile_all_stop {p : Char → Bool} {P : List Char} {q : Char} {r : List Char}
    (hall : ∀ c ∈ P, p c = true) (hq : p q = false) :
    (P ++ q :: r).takeWhile p = P := by
  induction P with
  | nil =>
    rw [List.nil_append, List.takeWhile_cons, hq]
    rfl
  | cons c P' ih =>
    rw [List.cons_append, List.takeWhile_cons, hall c (List.mem_cons_self _ _),
      ih fun d hd => hall d (List.mem_cons_of_mem _ hd)]
    rfl

theorem pskPrefix_not_prefix_of_head {c : Char} {s : List Char} (h2 : c ≠ '#') :
    ¬ (pskCommentPrefix <+: c :: s) := by
  intro hpre
  obtain ⟨r, hr⟩ := hpre
  rw [show pskCommentPrefix = '#' :: "psk=\"".data from rfl, List.cons_append,
    List.cons.injEq] at hr
  exact h2 hr.1.symm

theorem matchPskLen_none_head {c : Char} {s : List Char} (h1 : c ≠ '\t') (h2 : c ≠ '#') :
    matchPskLen (c :: s) = none := by
  have ht : (c :: s).takeWhile (fun x => x == '\t') = [] := by
    rw [List.takeWhile_cons, show (c == '\t') = false from by
      rw [beq_eq_false_iff_ne]; exact h1]
    rfl
  rw [matchPskLen]
  simp only [ht, List.length_nil, List.drop_zero]
  rw [if_neg (pskPrefix_not_prefix_of_head h2)]

theorem matchPskLen_none_tab {c : Char} {s : List Char} (h1 : c ≠ '\t') (h2 : c ≠ '#') :
    matchPskLen ('\t' :: c :: s) = none := by
  have ht : ('\t' :: c :: s).takeWhile (fun x => x == '\t') = ['\t'] := by
    rw [List.takeWhile_cons, show (('\t' : Char) == '\t') = true from by rw [beq_iff_eq],
      List.takeWhile_cons, show (c == '\t') = false from by
        rw [beq_eq_false_iff_ne]; exact h1]
    rfl
  rw [matchPskLen]
  simp only [ht, List.length_cons, List.length_nil, List.drop_succ_cons, List.drop_zero]
  rw [if_neg (pskPrefix_not_prefix_of_head h2)]

theorem matchPskLen_match {P r : List Char} (hP : ∀ ch ∈ P, ch ≠ '"' ∧ ch ≠ '\n')
    (hne : P ≠ []) :
    matchPskLen ('\t' :: (pskCommentPrefix ++ (P ++ '"' :: '\n' :: r))) =
      some (1 + pskCommentPrefix.length + P.length + 2) := by
  have ht : ('\t' :: (pskCommentPrefix ++ (P ++ '"' :: '\n' :: r))).takeWhile
      (fun x => x == '\t') = ['\t'] := by
    rw [show pskCommentPrefix ++ (P ++ '"' :: '\n' :: r) =
        '#' :: ("psk=\"".data ++ (P ++ '"' :: '\n' :: r)) from rfl]
    rw [List.takeWhile_cons, show (('\t' : Char) == '\t') = true from by rw [beq_iff_eq],
      List.takeWhile_cons, show (('#' : Char) == '\t') = false from by decide]
    rfl
  have hbody : (P ++ '"' :: '\n' :: r).takeWhile (fun c => !(c == '"' || c == '\n')) = P := by
    apply takeWhile_all_stop
    · intro ch hch
      obtain ⟨hq, hn⟩ := hP ch hch
      simp [hq, hn]
    · simp
  rw [matchPskLen]
  simp only [ht, List.length_cons, List.length_nil, List.drop_succ_cons, List.drop_zero]
  rw [if_pos (List.prefix_append pskCommentPrefix (P ++ '"' :: '\n' :: r)), List.drop_left,
    hbody]
  rw [if_pos (by
    have := List.length_pos.mpr hne
    omega : 1 ≤ P.length)]
  rw [List.drop_left]
  rfl

theorem scrub_cons_plain {c : Char} {s : List Char} (h1 : c ≠ '\t') (h2 : c ≠ '#') :
    reSubEmpty matchPskLen (c :: s) = c :: reSubEmpty matchPskLen s :=
  reSub_cons_none (matchPskLen_none_head h1 h2)

theorem scrub_tab_head {c : Char} {s : List Char} (h1 : c ≠ '\t') (h2 : c ≠ '#') :
    reSubEmpty matchPskLen ('\t' :: c :: s) = '\t' :: reSubEmpty matchPskLen (c :: s) :=
  reSub_cons_none (matchPskLen_none_tab h1 h2)

theorem scrub_append_plain {x : List Char} (hx : ∀ c ∈ x, c ≠ '\t' ∧ c ≠ '#') :
    ∀ s : List Char, reSubEmpty matchPskLen (x ++ s) = x ++ reSubEmpty matchPskLen s := by
  induction x with
  | nil => intro s; rfl
  | cons c x' ih =>
    intro s
    rw [List.cons_append,
      scrub_cons_plain (hx c (List.mem_cons_self _ _)).1 (hx c (List.mem_cons_self _ _)).2,
      ih (fun d hd => hx d (List.mem_cons_of_mem _ hd)) s, List.cons_append]

theorem scrub_psk_line {P r : List Char} (hP : ∀ ch ∈ P, ch ≠ '"' ∧ ch ≠ '\n')
    (hne : P ≠ []) :
    reSubEmpty matchPskLen ('\t' :: (pskCommentPrefix ++ (P ++ '"' :: '\n' :: r))) =
      reSubEmpty matchPskLen r := by
  rw [reSub_cons_some (matchPskLen_match hP hne)]
  congr 1
  rw [show 1 + pskCommentPrefix.length + P.length + 2 - 1 =
      pskCommentPrefix.length + (P.length + 2) from by omega,
    List.drop_append (P.length + 2), List.drop_append 2]
  rfl

theorem scrub_all_plain {x : List Char} (hx : ∀ c ∈ x, c ≠ '\t' ∧ c ≠ '#') :
    reSubEmpty matchPskLen x = x := by
  have h := scrub_append_plain hx []
  rw [List.append_nil, show reSubEmpty matchPskLen [] = [] from rfl,
    List.append_nil] at h
  exact h

theorem scrub_raw_eq_clean {S P H : List Char}
    (hS : ∀ c ∈ S, c ≠ '\t' ∧ c ≠ '#') (hH : ∀ c ∈ H, c ≠ '\t' ∧ c ≠ '#')
    (hP : ∀ c ∈ P, c ≠ '"' ∧ c ≠ '\n') (hPne : P ≠ []) :
    scrubbed_entry (wpaRawOutput S P H) = wpaCleanOutput S H := by
  have hshape : wpaRawOutput S P H =
      "network=\x7b\n".data ++ ('\t' :: ("ssid=\"".data ++ (S ++ ("\"\n".data ++
        ('\t' :: (pskCommentPrefix ++ (P ++ '"' :: '\n' ::
          ('\t' :: ("psk=".data ++ (H ++ "\n\x7d\n".data)))))))))) := by
    rw [wpaRawOutput,
      show "network=\x7b\n\tssid=\"".data =
        "network=\x7b\n".data ++ '\t' :: "ssid=\"".data from by decide,
      show "\"\n\t#psk=\"".data = "\"\n".data ++ '\t' :: pskCommentPrefix from by decide,
      show "\"\n\tpsk=".data = '"' :: '\n' :: '\t' :: "psk=".data from by decide]
    simp
  have step2 : ∀ X : List Char,
      reSubEmpty matchPskLen ('\t' :: ("ssid=\"".data ++ X)) =
        '\t' :: reSubEmpty matchPskLen ("ssid=\"".data ++ X) := by
    intro X
    rw [show ("ssid=\"".data ++ X) = 's' :: ("sid=\"".data ++ X) from rfl]
    exact scrub_tab_head (by decide) (by decide)
  have step7 : ∀ X : List Char,
      reSubEmpty matchPskLen ('\t' :: ("psk=".data ++ X)) =
        '\t' :: reSubEmpty matchPskLen ("psk=".data ++ X) := by
    intro X
    rw [show ("psk=".data ++ X) = 'p' :: ("sk=".data ++ X) from rfl]
    exact scrub_tab_head (by decide) (by decide)
  rw [scrubbed_entry, hshape,
    scrub_append_plain (by decide), step2, scrub_append_plain (by decide),
    scrub_append_plain hS, scrub_append_plain (by decide),
    scrub_psk_line hP hPne, step7, scrub_append_plain (by decide),
    scrub_append_plain hH, scrub_all_plain (by decide)]
  rw [wpaCleanOutput,
    show "network=\x7b\n\tssid=\"".data =
      "network=\x7b\n".data ++ '\t' :: "ssid=\"".data from by decide,
    show "\"\n\tpsk=".data = "\"\n".data ++ '\t' :: "psk=".data from by decide]
  simp

/-- C7: for every `wpa_passphrase` output shape (ssid `S`, plaintext password
`P`, derived key `H`, with `P` nonempty and quote/newline-free as the utility
guarantees, and `S`, `H` free of tabs and `#`), the entry `set_cli_mode`
persists - the scrub of the raw output - equals the output without the
plaintext-password comment line: it does not contain that plaintext line, and
it still contains the derived key line. -/
theorem scrubbed_entry_removes_plaintext {S P H : List Char}
    (hS : ∀ c ∈ S, c ≠ '\t' ∧ c ≠ '#') (hH : ∀ c ∈ H, c ≠ '\t' ∧ c ≠ '#')
    (hP : ∀ c ∈ P, c ≠ '"' ∧ c ≠ '\n') (hPne : P ≠ []) :
    scrubbed_entry (wpaRawOutput S P H) = wpaCleanOutput S H ∧
    ¬ (plainPskLine P <:+: scrubbed_entry (wpaRawOutput S P H)) ∧
    derivedKeyLine H <:+: scrubbed_entry (wpaRawOutput S P H) := by
  have heq := scrub_raw_eq_clean hS hH hP hPne
  refine ⟨heq, ?_, ?_⟩
  · rw [heq]
    intro hinf
    have h1 : '#' ∈ plainPskLine P := by
      rw [plainPskLine]
      exact List.mem_append_left _ (List.mem_append_left _ (by decide))
    have h2 := hinf.subset h1
    have h3 : ∀ c ∈ wpaCleanOutput S H, c ≠ '#' := by
      intro c hc
      rw [wpaCleanOutput] at hc
      rcases List.mem_append.mp hc with h | h
      · rcases List.mem_append.mp h with h | h
        · rcases List.mem_append.mp h with h | h
          · rcases List.mem_append.mp h with h | h
            · exact fun hcc => absurd (hcc ▸ h) (by decide)
            · exact (hS c h).2
          · exact fun hcc => absurd (hcc ▸ h) (by decide)
        · exact (hH c h).2
      · exact fun hcc => absurd (hcc ▸ h) (by decide)
    exact h3 '#' h2 rfl
  · rw [heq, wpaCleanOutput, derivedKeyLine]
    refine ⟨"network=\x7b\n\tssid=\"".data ++ S ++ "\"\n".data, "\x7d\n".data, ?_⟩
    rw [show "\"\n\tpsk=".data = "\"\n".data ++ "\tpsk=".data from by decide,
      show ("\n\x7d\n".data : List Char) = "\n".data ++ "\x7d\n".data from by decide]
    simp

/-- C7, witness: the scrubbing theorem applied at a concrete ssid, password
and derived key. -/
theorem scrubbed_entry_removes_plaintext_witness :
    scrubbed_entry (wpaRawOutput "net".data "pass".data "0123abcd".data) =
      wpaCleanOutput "net".data "0123abcd".data ∧
    ¬ (plainPskLine "pass".data <:+:
        scrubbed_entry (wpaRawOutput "net".data "pass".data "0123abcd".data)) ∧
    derivedKeyLine "0123abcd".data <:+:
      scrubbed_entry (wpaRawOutput "net".data "pass".data "0123abcd".data) :=
  scrubbed_entry_removes_plaintext (by decide) (by decide) (by decide) (by decide)

end Wifictl
